import Mathlib

/-!
Verification of the asynchronous 3D-model generation service
(`model_generator/script_example/api_server.py`).

The service keeps a process-wide table `request_status` mapping request
identifiers to status records.  `generate_model` (the submit endpoint)
validates the bearer token and the identifier, writes a `queued` record and
schedules `process_request` as a background worker.  The worker writes a
`processing` record, decodes the base64 payload, stages it under
`/tmp/<requestId>`, runs the ComfyUI workflow, writes a `completed` record
with the model URL and removes the temp directory; any exception is caught
and turned into an `error` record.  `get_status` (the poll endpoint) reads
the table.

We embed the shared state (status table, temp directories, scheduled
worker tasks) and a deterministic step function over labels; a label fixes
both the operation and the environment outcome (decode succeeded, upload
failed, ...), so a trace is just a list of labels folded over the state.
The websocket completion wait and the newest-artifact scan inside
`run_workflow` are embedded as pure functions over event lists and
directory listings.
-/

namespace ApiServer

/-- The four states a status record can carry, as written by the code:
"queued", "processing", "completed", "error". -/
inductive JobState where
  | queued
  | processing
  | completed
  | error
deriving DecidableEq, Repr

/-- One entry of `request_status`: the dictionaries the code stores under the
keys "status", "message", "model_url". -/
structure JobRecord where
  state : JobState
  message : String
  model_url : Option String
deriving DecidableEq, Repr

/-- The record written by `generate_model` on an accepted submission. -/
def queuedRec : JobRecord :=
  { state := .queued, message := "Your request has been queued", model_url := none }

/-- The record written by `process_request` when it starts. -/
def processingRec : JobRecord :=
  { state := .processing, message := "Your request is being processed", model_url := none }

/-- The record written by `process_request` on success; the URL is
`f"/static/{model_relative_path}"`. -/
def completedRec (relPath : String) : JobRecord :=
  { state := .completed, message := "Your 3D model is ready",
    model_url := some ("/static/" ++ relPath) }

/-- The record written by the `except` block of `process_request`:
`f"Failed to generate model: {str(e)}"`. -/
def errorRec (msg : String) : JobRecord :=
  { state := .error, message := "Failed to generate model: " ++ msg, model_url := none }

/-- Phases of one background worker (`process_request`) between its writes to
shared state: `pending` before the task runs, `running` after the
`processing` record is written, `staged` after the base64 payload was decoded
and the temp directory populated, `cleaning` after the `completed` record was
written and before `shutil.rmtree`.  A finished worker is dropped. -/
inductive Phase where
  | pending
  | running
  | staged
  | cleaning
deriving DecidableEq, Repr

/-- A scheduled `process_request(request_id, image)` task. -/
structure Task where
  tid : String
  image : String
  phase : Phase
deriving DecidableEq, Repr

/-- Shared state: the `request_status` table (newest binding first, as an
association list), which `/tmp/<id>` directories exist, and the scheduled
background tasks in scheduling order. -/
structure SState where
  table : List (String × JobRecord)
  tmp : List String
  workers : List Task
deriving DecidableEq, Repr

/-- The state at process start: empty table, no temp dirs, no tasks. -/
def initState : SState := { table := [], tmp := [], workers := [] }

/-- `validate_token`: accept iff `VALID_TOKENS` is nonempty and contains the
presented token (the code rejects when `not VALID_TOKENS or token not in
VALID_TOKENS`). -/
def validate_token (validTokens : List String) (token : String) : Bool :=
  !validTokens.isEmpty && validTokens.contains token

/-- Labels: one per externally visible operation or worker step, carrying the
environment outcome.  `wDecodeOk` is the worker decoding its payload and
creating `/tmp/<id>`; `wDecodeFail` any failure before the temp directory is
made; `wWorkOk`/`wWorkFail` the rest of the pipeline (stage write, upload,
queue, completion wait, artifact scan) succeeding or failing;
`wCleanupOk`/`wCleanupFail` the final `shutil.rmtree` after the `completed`
record is written. -/
inductive Label where
  | submit (token id image : String)
  | poll (token id : String)
  | wStart (id : String)
  | wDecodeOk (id : String)
  | wDecodeFail (id msg : String)
  | wWorkOk (id relPath : String)
  | wWorkFail (id msg : String)
  | wCleanupOk (id : String)
  | wCleanupFail (id msg : String)
deriving DecidableEq, Repr

/-- Advance the first scheduled task for `id` in phase `ph` to phase `ph2`;
`none` when no such task exists (the label does not apply). -/
def advanceTask (id : String) (ph ph2 : Phase) : List Task → Option (List Task)
  | [] => none
  | t :: ts =>
      if t.tid = id ∧ t.phase = ph then some ({ t with phase := ph2 } :: ts)
      else (advanceTask id ph ph2 ts).map (t :: ·)

/-- Drop the first scheduled task for `id` in phase `ph` (the worker
finished); `none` when no such task exists. -/
def dropTask (id : String) (ph : Phase) : List Task → Option (List Task)
  | [] => none
  | t :: ts =>
      if t.tid = id ∧ t.phase = ph then some ts
      else (dropTask id ph ts).map (t :: ·)

/-- One step of the service.  `submit` mirrors `generate_model`: with a valid
token and nonempty id it overwrites the record with `queuedRec` and appends a
background task; otherwise it raises and changes nothing.  `poll` mirrors
`get_status`, a pure read.  The worker labels mirror the writes of
`process_request`: `processing` on start, temp-dir creation after decode,
`completed` plus phase `cleaning` on pipeline success, `error` on any caught
exception (including a failing `shutil.rmtree`, whose exception lands in the
same `except` block), temp-dir removal only on successful cleanup. -/
def step (validTokens : List String) (s : SState) : Label → SState
  | .submit token id image =>
      if validate_token validTokens token ∧ id ≠ "" then
        { s with table := (id, queuedRec) :: s.table,
                 workers := s.workers ++ [⟨id, image, .pending⟩] }
      else s
  | .poll _ _ => s
  | .wStart id =>
      match advanceTask id .pending .running s.workers with
      | some ws => { s with table := (id, processingRec) :: s.table, workers := ws }
      | none => s
  | .wDecodeOk id =>
      match advanceTask id .running .staged s.workers with
      | some ws => { s with tmp := id :: s.tmp, workers := ws }
      | none => s
  | .wDecodeFail id msg =>
      match dropTask id .running s.workers with
      | some ws => { s with table := (id, errorRec msg) :: s.table, workers := ws }
      | none => s
  | .wWorkOk id relPath =>
      match advanceTask id .staged .cleaning s.workers with
      | some ws => { s with table := (id, completedRec relPath) :: s.table, workers := ws }
      | none => s
  | .wWorkFail id msg =>
      match dropTask id .staged s.workers with
      | some ws => { s with table := (id, errorRec msg) :: s.table, workers := ws }
      | none => s
  | .wCleanupOk id =>
      match dropTask id .cleaning s.workers with
      | some ws => { s with tmp := s.tmp.filter (· ≠ id), workers := ws }
      | none => s
  | .wCleanupFail id msg =>
      match dropTask id .cleaning s.workers with
      | some ws => { s with table := (id, errorRec msg) :: s.table, workers := ws }
      | none => s

/-- Run a trace of labels from a state. -/
def run (validTokens : List String) (s : SState) (trace : List Label) : SState :=
  trace.foldl (step validTokens) s

/-- The errors the two endpoints can raise synchronously: 401, 400, 404. -/
inductive ApiError where
  | unauthorized
  | invalidArgument
  | notFound
deriving DecidableEq, Repr

/-- The body `generate_model` returns on acceptance. -/
structure Ack where
  status : String
  message : String
  request_id : String
deriving DecidableEq, Repr

/-- The response of `generate_model`: 401 from `validate_token`, 400 when the
id is empty, otherwise the queued acknowledgement. -/
def generate_model (validTokens : List String) (token id : String) :
    Except ApiError Ack :=
  if ¬ validate_token validTokens token then .error .unauthorized
  else if id = "" then .error .invalidArgument
  else .ok { status := "queued",
             message := "Your request has been queued for processing",
             request_id := id }

/-- The response of `get_status`: 401 from `validate_token`, 404 when
`request_id not in request_status`, otherwise the stored record verbatim. -/
def get_status (validTokens : List String) (s : SState) (token id : String) :
    Except ApiError JobRecord :=
  if ¬ validate_token validTokens token then .error .unauthorized
  else
    match s.table.lookup id with
    | none => .error .notFound
    | some r => .ok r

/-- One message received on the websocket inside `run_workflow`: either a
text frame carrying `message["type"]`, `message["data"]["node"]` and
`message["data"]["prompt_id"]`, or a non-text (binary) frame. -/
inductive WsEvent where
  | text (ty : String) (node : Option String) (prompt_id : String)
  | binary
deriving DecidableEq, Repr

/-- Does the websocket loop of `run_workflow` break on this event: a text
frame with `message["type"] == "executing"`, `data["node"] is None` and
`data["prompt_id"] == prompt_id`? -/
def isFinishedSentinel (promptId : String) : WsEvent → Bool
  | .text ty node pid => ty = "executing" && node = none && pid = promptId
  | .binary => false

/-- The completion wait of `run_workflow` over a stream of events: the index
of the event it breaks on, or `none` when the stream ends without the
sentinel (the loop never terminates on such a stream). -/
def awaitCompletion (promptId : String) : List WsEvent → Option Nat
  | [] => none
  | ev :: evs =>
      if isFinishedSentinel promptId ev then some 0
      else (awaitCompletion promptId evs).map (· + 1)

/-- Python `s.startswith(p)`, embedded on the character sequences of the two
strings. -/
def strStartsWith (s p : String) : Bool :=
  p.data.isPrefixOf s.data

/-- Python `s.endswith(p)`, embedded on the character sequences of the two
strings. -/
def strEndsWith (s p : String) : Bool :=
  p.data.isSuffixOf s.data

/-- Does a directory entry pass the filter of the artifact scan in
`run_workflow`: `filename.startswith(base_prefix) and
filename.endswith(".glb")`? -/
def matchesModel (basePre : String) (entry : String × Nat) : Bool :=
  strStartsWith entry.1 basePre && strEndsWith entry.1 ".glb"

/-- The loop body of the artifact scan: keep `(latest_file, latest_time)`,
updating only when the entry matches and `file_time > latest_time`. -/
def scanStep (basePre : String) (acc : Option String × Nat) (entry : String × Nat) :
    Option String × Nat :=
  if matchesModel basePre entry ∧ acc.2 < entry.2 then (some entry.1, entry.2) else acc

/-- The artifact scan of `run_workflow`: fold over the directory listing (in
listing order, with modification times) starting from
`latest_file = None, latest_time = 0`, and return `latest_file`. -/
def findLatest (basePre : String) (listing : List (String × Nat)) : Option String :=
  (listing.foldl (scanStep basePre) (none, 0)).1

/-- The artifact-location phase of `run_workflow` including the existence
check on the output directory: `none` both when
`os.path.exists(full_local_output_path)` fails and when the scan finds no
file (the code raises an HTTPException in both cases). -/
def findLatestInDir (basePre : String) (dir : Option (List (String × Nat))) :
    Option String :=
  match dir with
  | none => none
  | some listing => findLatest basePre listing

/-- Definition following the words of the spec for the Artifact Locator, for
comparison with the scan the code performs: among matching entries, pick the
one with the greatest modification time, breaking ties by the
lexicographically smallest name; NotFound when nothing matches. -/
def findLatestSpecWords (basePre : String) (listing : List (String × Nat)) :
    Option String :=
  ((listing.filter (matchesModel basePre)).foldl
    (fun acc e =>
      match acc with
      | none => some e
      | some b => if b.2 < e.2 ∨ (e.2 = b.2 ∧ e.1.data < b.1.data) then some e else some b)
    none).map (·.1)

/-- The entry the running strict-max scan settles on when started with
threshold `t0`: the first matching entry whose time exceeds `t0` and every
later matching time. -/
def bestFrom (basePre : String) (t0 : Nat) : List (String × Nat) → Option (String × Nat)
  | [] => none
  | e :: l =>
      if matchesModel basePre e ∧ t0 < e.2 then
        match bestFrom basePre e.2 l with
        | none => some e
        | some b => some b
      else bestFrom basePre t0 l

/-- The artifact-scan fold computes exactly what `bestFrom` describes,
falling back to the initial accumulator when no matching entry beats the
initial threshold. -/
theorem scan_foldl_eq_bestFrom (basePre : String) (l : List (String × Nat))
    (f0 : Option String) (t0 : Nat) :
    l.foldl (scanStep basePre) (f0, t0)
      = match bestFrom basePre t0 l with
        | none => (f0, t0)
        | some b => (some b.1, b.2) := by
  induction l generalizing f0 t0 with
  | nil => simp [bestFrom]
  | cons e l ih =>
    by_cases h : matchesModel basePre e = true ∧ t0 < e.2
    · rw [List.foldl_cons, show scanStep basePre (f0, t0) e = (some e.1, e.2) by
        simp [scanStep, h.1, h.2]]
      rw [ih]
      rw [show bestFrom basePre t0 (e :: l)
            = match bestFrom basePre e.2 l with
              | none => some e
              | some b => some b from by simp [bestFrom, h.1, h.2]]
      cases bestFrom basePre e.2 l <;> simp
    · rw [List.foldl_cons, show scanStep basePre (f0, t0) e = (f0, t0) by
        simp only [scanStep]
        rw [if_neg]
        simpa using h]
      rw [ih]
      rw [show bestFrom basePre t0 (e :: l) = bestFrom basePre t0 l from by
        simp only [bestFrom]
        rw [if_neg]
        simpa using h]

/-- `bestFrom` finds nothing exactly when every matching entry is at or
below the threshold. -/
theorem bestFrom_eq_none_iff (basePre : String) (l : List (String × Nat)) (t0 : Nat) :
    bestFrom basePre t0 l = none ↔
      ∀ e ∈ l, matchesModel basePre e = true → e.2 ≤ t0 := by
  induction l generalizing t0 with
  | nil => simp [bestFrom]
  | cons e l ih =>
    by_cases h : matchesModel basePre e = true ∧ t0 < e.2
    · rw [show bestFrom basePre t0 (e :: l)
            = match bestFrom basePre e.2 l with
              | none => some e
              | some b => some b from by simp [bestFrom, h.1, h.2]]
      constructor
      · intro hnone
        cases hb : bestFrom basePre e.2 l <;> rw [hb] at hnone <;> exact absurd hnone (by simp)
      · intro hall
        exact absurd (hall e (by simp) h.1) (by omega)
    · rw [show bestFrom basePre t0 (e :: l) = bestFrom basePre t0 l from by
        simp only [bestFrom]
        rw [if_neg]
        simpa using h]
      rw [ih]
      constructor
      · intro hall e2 he2 hm
        rcases List.mem_cons.mp he2 with he2 | he2
        · subst he2
          rcases Decidable.not_and_iff_or_not.mp h with h2 | h2
          · exact absurd hm h2
          · omega
        · exact hall e2 he2 hm
      · intro hall e2 he2 hm
        exact hall e2 (List.mem_cons_of_mem e he2) hm

/-- `bestFrom` settles on exactly the first matching entry that attains the
maximum time, provided that time beats the threshold: characterization of
the scan result. -/
theorem bestFrom_eq_some_iff (basePre : String) (l : List (String × Nat))
    (t0 : Nat) (f : String) (t : Nat) :
    bestFrom basePre t0 l = some (f, t) ↔
      ∃ i : Nat, l[i]? = some (f, t) ∧ matchesModel basePre (f, t) = true ∧ t0 < t ∧
        (∀ j e, j < i → l[j]? = some e → matchesModel basePre e = true → e.2 < t) ∧
        (∀ j e, i < j → l[j]? = some e → matchesModel basePre e = true → e.2 ≤ t) := by
  induction l generalizing t0 f t with
  | nil => simp [bestFrom]
  | cons e l ih =>
    by_cases h : matchesModel basePre e = true ∧ t0 < e.2
    · rw [show bestFrom basePre t0 (e :: l)
            = match bestFrom basePre e.2 l with
              | none => some e
              | some b => some b from by simp [bestFrom, h.1, h.2]]
      cases hb : bestFrom basePre e.2 l with
      | none =>
        have hall := (bestFrom_eq_none_iff basePre l e.2).mp hb
        constructor
        · intro hsome
          have he : e = (f, t) := by simpa using hsome
          subst he
          refine ⟨0, by simp, h.1, h.2, ?_, ?_⟩
          · intro j e2 hj
            omega
          · intro j e2 hij hje hm
            cases j with
            | zero => omega
            | succ j2 =>
              rw [List.getElem?_cons_succ] at hje
              exact hall e2 (List.getElem?_mem hje) hm
        · rintro ⟨i, hi, hm, ht0, hbef, _⟩
          cases i with
          | zero =>
            rw [List.getElem?_cons_zero] at hi
            injection hi with hi
            rw [hi]
          | succ i2 =>
            have he2t : e.2 < t := hbef 0 e (Nat.succ_pos i2) List.getElem?_cons_zero h.1
            rw [List.getElem?_cons_succ] at hi
            have : t ≤ e.2 := hall (f, t) (List.getElem?_mem hi) hm
            omega
      | some b =>
        obtain ⟨b1, b2⟩ := b
        obtain ⟨ib, hib, hbm, hbt, hbbef, hbaft⟩ := (ih e.2 b1 b2).mp hb
        constructor
        · intro hsome
          have hfb : b1 = f ∧ b2 = t := by
            constructor <;> injection hsome with h1 <;> injection h1
          obtain ⟨hf1, hf2⟩ := hfb
          subst hf1
          subst hf2
          refine ⟨ib + 1, by simpa using hib, hbm, by omega, ?_, ?_⟩
          · intro j e2 hj hje hm2
            cases j with
            | zero =>
              rw [List.getElem?_cons_zero] at hje
              injection hje with hje
              subst hje
              omega
            | succ j2 =>
              rw [List.getElem?_cons_succ] at hje
              exact hbbef j2 e2 (by omega) hje hm2
          · intro j e2 hj hje hm2
            cases j with
            | zero => omega
            | succ j2 =>
              rw [List.getElem?_cons_succ] at hje
              exact hbaft j2 e2 (by omega) hje hm2
        · rintro ⟨i, hi, hm, ht0, hbef, haft⟩
          cases i with
          | zero =>
            rw [List.getElem?_cons_zero] at hi
            injection hi with hi
            have hbin : b2 ≤ t := by
              refine haft (ib + 1) (b1, b2) (Nat.succ_pos ib) ?_ hbm
              simpa using hib
            have : e.2 = t := by rw [hi]
            omega
          | succ i2 =>
            rw [List.getElem?_cons_succ] at hi
            have het : e.2 < t := hbef 0 e (Nat.succ_pos i2) List.getElem?_cons_zero h.1
            have : bestFrom basePre e.2 l = some (f, t) := by
              refine (ih e.2 f t).mpr ⟨i2, hi, hm, het, ?_, ?_⟩
              · intro j e2 hj hje hm2
                exact hbef (j + 1) e2 (by omega) (by simpa using hje) hm2
              · intro j e2 hj hje hm2
                exact haft (j + 1) e2 (by omega) (by simpa using hje) hm2
            rw [hb] at this
            exact this.symm ▸ rfl
    · rw [show bestFrom basePre t0 (e :: l) = bestFrom basePre t0 l from by
        simp only [bestFrom]
        rw [if_neg]
        simpa using h]
      constructor
      · intro hsome
        obtain ⟨i, hi, hm, ht0, hbef, haft⟩ := (ih t0 f t).mp hsome
        refine ⟨i + 1, by simpa using hi, hm, ht0, ?_, ?_⟩
        · intro j e2 hj hje hm2
          cases j with
          | zero =>
            rw [List.getElem?_cons_zero] at hje
            injection hje with hje
            subst hje
            rcases Decidable.not_and_iff_or_not.mp h with h2 | h2
            · exact absurd hm2 h2
            · omega
          | succ j2 =>
            rw [List.getElem?_cons_succ] at hje
            exact hbef j2 e2 (by omega) hje hm2
        · intro j e2 hj hje hm2
          cases j with
          | zero => omega
          | succ j2 =>
            rw [List.getElem?_cons_succ] at hje
            exact haft j2 e2 (by omega) hje hm2
      · rintro ⟨i, hi, hm, ht0, hbef, haft⟩
        cases i with
        | zero =>
          rw [List.getElem?_cons_zero] at hi
          injection hi with hi
          rcases Decidable.not_and_iff_or_not.mp h with h2 | h2
          · rw [hi] at h2
            exact absurd hm h2
          · rw [hi] at h2
            simp at h2
            omega
        | succ i2 =>
          rw [List.getElem?_cons_succ] at hi
          refine (ih t0 f t).mpr ⟨i2, hi, hm, ht0, ?_, ?_⟩
          · intro j e2 hj hje hm2
            exact hbef (j + 1) e2 (by omega) (by simpa using hje) hm2
          · intro j e2 hj hje hm2
            exact haft (j + 1) e2 (by omega) (by simpa using hje) hm2

/-- Looking up the key just written finds the new record. -/
theorem lookup_cons_self (id : String) (r : JobRecord) (t : List (String × JobRecord)) :
    ((id, r) :: t).lookup id = some r := by
  simp [List.lookup]

/-- Writing one key leaves lookups of every other key unchanged. -/
theorem lookup_cons_ne (id j : String) (r : JobRecord) (t : List (String × JobRecord))
    (h : j ≠ id) : ((id, r) :: t).lookup j = t.lookup j := by
  simp only [List.lookup]
  rw [show (j == id) = false from beq_eq_false_iff_ne.mpr h]

/-- The invariant each written record satisfies: the model URL is present
exactly on completed records. -/
def recordOk (r : JobRecord) : Prop :=
  r.model_url.isSome = true ↔ r.state = .completed

/-- Every step either leaves the table alone or prepends a single record,
and every record the service ever writes satisfies `recordOk`. -/
theorem step_table_cases (validTokens : List String) (s : SState) (lb : Label) :
    (step validTokens s lb).table = s.table ∨
    ∃ id2 R, (step validTokens s lb).table = (id2, R) :: s.table ∧ recordOk R := by
  cases lb with
  | submit token id image =>
    simp only [step]
    split
    · exact Or.inr ⟨id, queuedRec, rfl, by simp [recordOk, queuedRec]⟩
    · exact Or.inl rfl
  | poll token id => exact Or.inl rfl
  | wStart id =>
    simp only [step]
    split
    · exact Or.inr ⟨id, processingRec, rfl, by simp [recordOk, processingRec]⟩
    · exact Or.inl rfl
  | wDecodeOk id =>
    simp only [step]
    split
    · exact Or.inl rfl
    · exact Or.inl rfl
  | wDecodeFail id msg =>
    simp only [step]
    split
    · exact Or.inr ⟨id, errorRec msg, rfl, by simp [recordOk, errorRec]⟩
    · exact Or.inl rfl
  | wWorkOk id relPath =>
    simp only [step]
    split
    · exact Or.inr ⟨id, completedRec relPath, rfl, by simp [recordOk, completedRec]⟩
    · exact Or.inl rfl
  | wWorkFail id msg =>
    simp only [step]
    split
    · exact Or.inr ⟨id, errorRec msg, rfl, by simp [recordOk, errorRec]⟩
    · exact Or.inl rfl
  | wCleanupOk id =>
    simp only [step]
    split
    · exact Or.inl rfl
    · exact Or.inl rfl
  | wCleanupFail id msg =>
    simp only [step]
    split
    · exact Or.inr ⟨id, errorRec msg, rfl, by simp [recordOk, errorRec]⟩
    · exact Or.inl rfl

/-- `recordOk` of every table entry is preserved by any trace. -/
theorem run_preserves_recordOk (validTokens : List String) (s : SState)
    (trace : List Label)
    (h : ∀ id r, s.table.lookup id = some r → recordOk r) :
    ∀ id r, (run validTokens s trace).table.lookup id = some r → recordOk r := by
  induction trace generalizing s with
  | nil => exact h
  | cons lb tr ih =>
    refine ih (step validTokens s lb) ?_
    intro id r hr
    rcases step_table_cases validTokens s lb with hcase | ⟨id2, R, hcase, hRok⟩
    · rw [hcase] at hr
      exact h id r hr
    · rw [hcase] at hr
      by_cases hid : id = id2
      · subst hid
        rw [lookup_cons_self] at hr
        injection hr with hr
        exact hr ▸ hRok
      · rw [lookup_cons_ne id2 id R s.table hid] at hr
        exact h id r hr

/-- The worker-failure labels: which request they belong to, the message of
the caught exception, and the phase the failing worker was in. -/
def failureInfo : Label → Option (String × String × Phase)
  | .wDecodeFail id msg => some (id, msg, .running)
  | .wWorkFail id msg => some (id, msg, .staged)
  | .wCleanupFail id msg => some (id, msg, .cleaning)
  | _ => none

/-- The labels that write a terminal record for the given request: worker
success and each caught worker failure. -/
def terminalWriter (id : String) : Label → Bool
  | .wDecodeFail id2 _ => id2 == id
  | .wWorkOk id2 _ => id2 == id
  | .wWorkFail id2 _ => id2 == id
  | .wCleanupFail id2 _ => id2 == id
  | _ => false

/-- A record still awaiting its worker outcome. -/
def livePre (r : JobRecord) : Prop :=
  r.state = .queued ∨ r.state = .processing

/-- Any step that is not a terminal write for `id` keeps the record at `id`
present and in a queued or processing state. -/
theorem step_preserves_live (validTokens : List String) (s : SState) (lb : Label)
    (id : String)
    (hlive : ∃ r, s.table.lookup id = some r ∧ livePre r)
    (hnt : terminalWriter id lb = false) :
    ∃ r, (step validTokens s lb).table.lookup id = some r ∧ livePre r := by
  obtain ⟨r, hr, hlr⟩ := hlive
  cases lb with
  | submit token id2 image =>
    simp only [step]
    split
    · by_cases hid : id = id2
      · subst hid
        exact ⟨queuedRec, lookup_cons_self id queuedRec s.table, Or.inl rfl⟩
      · refine ⟨r, ?_, hlr⟩
        rw [lookup_cons_ne id2 id queuedRec s.table hid]
        exact hr
    · exact ⟨r, hr, hlr⟩
  | poll token id2 => exact ⟨r, hr, hlr⟩
  | wStart id2 =>
    simp only [step]
    split
    · by_cases hid : id = id2
      · subst hid
        exact ⟨processingRec, lookup_cons_self id processingRec s.table, Or.inr rfl⟩
      · refine ⟨r, ?_, hlr⟩
        rw [lookup_cons_ne id2 id processingRec s.table hid]
        exact hr
    · exact ⟨r, hr, hlr⟩
  | wDecodeOk id2 =>
    simp only [step]
    split
    · exact ⟨r, hr, hlr⟩
    · exact ⟨r, hr, hlr⟩
  | wDecodeFail id2 msg =>
    have hid : id ≠ id2 := fun hh => by
      rw [hh] at hnt
      simp [terminalWriter] at hnt
    simp only [step]
    split
    · refine ⟨r, ?_, hlr⟩
      rw [lookup_cons_ne id2 id (errorRec msg) s.table hid]
      exact hr
    · exact ⟨r, hr, hlr⟩
  | wWorkOk id2 relPath =>
    have hid : id ≠ id2 := fun hh => by
      rw [hh] at hnt
      simp [terminalWriter] at hnt
    simp only [step]
    split
    · refine ⟨r, ?_, hlr⟩
      rw [lookup_cons_ne id2 id (completedRec relPath) s.table hid]
      exact hr
    · exact ⟨r, hr, hlr⟩
  | wWorkFail id2 msg =>
    have hid : id ≠ id2 := fun hh => by
      rw [hh] at hnt
      simp [terminalWriter] at hnt
    simp only [step]
    split
    · refine ⟨r, ?_, hlr⟩
      rw [lookup_cons_ne id2 id (errorRec msg) s.table hid]
      exact hr
    · exact ⟨r, hr, hlr⟩
  | wCleanupOk id2 =>
    simp only [step]
    split
    · exact ⟨r, hr, hlr⟩
    · exact ⟨r, hr, hlr⟩
  | wCleanupFail id2 msg =>
    have hid : id ≠ id2 := fun hh => by
      rw [hh] at hnt
      simp [terminalWriter] at hnt
    simp only [step]
    split
    · refine ⟨r, ?_, hlr⟩
      rw [lookup_cons_ne id2 id (errorRec msg) s.table hid]
      exact hr
    · exact ⟨r, hr, hlr⟩

/-- `step_preserves_live`, lifted to whole traces without terminal writes. -/
theorem run_preserves_live (validTokens : List String) (s : SState)
    (trace : List Label) (id : String)
    (hlive : ∃ r, s.table.lookup id = some r ∧ livePre r)
    (hnt : ∀ lb ∈ trace, terminalWriter id lb = false) :
    ∃ r, (run validTokens s trace).table.lookup id = some r ∧ livePre r := by
  induction trace generalizing s with
  | nil => exact hlive
  | cons lb tr ih =>
    refine ih (step validTokens s lb) ?_ ?_
    · exact step_preserves_live validTokens s lb id hlive (hnt lb (by simp))
    · intro lb2 hlb2
      exact hnt lb2 (List.mem_cons_of_mem lb hlb2)

/-- Progress measure of a record slot along the intended lifecycle
`absent → queued → processing → terminal`. -/
def rank : Option JobRecord → Nat
  | none => 0
  | some r =>
      match r.state with
      | .queued => 1
      | .processing => 2
      | .completed => 3
      | .error => 3

/-- The two terminal states. -/
def isTerminal (r : JobRecord) : Prop :=
  r.state = .completed ∨ r.state = .error

/-- The record at `id` only moves forward between the two states: its rank
does not decrease and a terminal record is left untouched. -/
def Forward (id : String) (s s2 : SState) : Prop :=
  rank (s.table.lookup id) ≤ rank (s2.table.lookup id) ∧
  ∀ r, s.table.lookup id = some r → isTerminal r → s2.table.lookup id = some r

/-- The scheduled workers belonging to one request identifier. -/
def tasksFor (id : String) (s : SState) : List Task :=
  s.workers.filter (fun t => t.tid == id)

/-- What the record must be while a worker for the same request sits in the
given phase (single-submission discipline). -/
def taskOk (ph : Phase) (rec : Option JobRecord) : Prop :=
  match ph with
  | .pending => rec = some queuedRec
  | .running => rec = some processingRec
  | .staged => rec = some processingRec
  | .cleaning => ∃ p, rec = some (completedRec p)

/-- Invariant tying the (at most one) worker for `id` to the record at `id`. -/
def Inv (id : String) (s : SState) : Prop :=
  (tasksFor id s).length ≤ 1 ∧
  ∀ t ∈ tasksFor id s, taskOk t.phase (s.table.lookup id)

/-- `id` was never submitted: no record and no worker. -/
def Fresh (id : String) (s : SState) : Prop :=
  s.table.lookup id = none ∧ tasksFor id s = []

/-- Is this label a submission (accepted or not) for the identifier? -/
def isSubmitFor (id : String) : Label → Bool
  | .submit _ id2 _ => id2 == id
  | _ => false

/-- Is this label a cleanup failure for the identifier? -/
def isCleanupFailFor (id : String) : Label → Bool
  | .wCleanupFail id2 _ => id2 == id
  | _ => false

/-- A successful `advanceTask` found a task with the requested id and phase. -/
theorem advanceTask_mem (id2 : String) (ph ph2 : Phase) (ws ws2 : List Task)
    (h : advanceTask id2 ph ph2 ws = some ws2) :
    ∃ t ∈ ws, t.tid = id2 ∧ t.phase = ph := by
  induction ws generalizing ws2 with
  | nil => simp [advanceTask] at h
  | cons t ts ih =>
    by_cases hit : t.tid = id2 ∧ t.phase = ph
    · exact ⟨t, by simp, hit⟩
    · rw [advanceTask, if_neg hit] at h
      obtain ⟨ts2, hts2, _⟩ := Option.map_eq_some'.mp h
      obtain ⟨t2, ht2, hp⟩ := ih ts2 hts2
      exact ⟨t2, List.mem_cons_of_mem t ht2, hp⟩

/-- A successful `dropTask` found a task with the requested id and phase. -/
theorem dropTask_mem (id2 : String) (ph : Phase) (ws ws2 : List Task)
    (h : dropTask id2 ph ws = some ws2) :
    ∃ t ∈ ws, t.tid = id2 ∧ t.phase = ph := by
  induction ws generalizing ws2 with
  | nil => simp [dropTask] at h
  | cons t ts ih =>
    by_cases hit : t.tid = id2 ∧ t.phase = ph
    · exact ⟨t, by simp, hit⟩
    · rw [dropTask, if_neg hit] at h
      obtain ⟨ts2, hts2, _⟩ := Option.map_eq_some'.mp h
      obtain ⟨t2, ht2, hp⟩ := ih ts2 hts2
      exact ⟨t2, List.mem_cons_of_mem t ht2, hp⟩

/-- Filtering past a kept head, with the predicate explicit. -/
theorem filter_cons_pos (p : Task → Bool) (t : Task) (ts : List Task) (h : p t = true) :
    (t :: ts).filter p = t :: ts.filter p := by
  simp [List.filter_cons, h]

/-- Filtering past a dropped head, with the predicate explicit. -/
theorem filter_cons_neg (p : Task → Bool) (t : Task) (ts : List Task) (h : p t = false) :
    (t :: ts).filter p = ts.filter p := by
  simp [List.filter_cons, h]

/-- Advancing a worker of another request does not change the workers
belonging to `id`. -/
theorem advanceTask_filter_ne (id id2 : String) (ph ph2 : Phase) (ws ws2 : List Task)
    (h : advanceTask id2 ph ph2 ws = some ws2) (hne : id2 ≠ id) :
    ws2.filter (fun t => t.tid == id) = ws.filter (fun t => t.tid == id) := by
  induction ws generalizing ws2 with
  | nil => simp [advanceTask] at h
  | cons t ts ih =>
    by_cases hit : t.tid = id2 ∧ t.phase = ph
    · rw [advanceTask, if_pos hit] at h
      injection h with h
      subst h
      have htne : (t.tid == id) = false := by
        rw [hit.1]
        exact beq_eq_false_iff_ne.mpr hne
      simp [List.filter, htne]
    · rw [advanceTask, if_neg hit] at h
      obtain ⟨ts2, hts2, hmap⟩ := Option.map_eq_some'.mp h
      subst hmap
      cases hft : (t.tid == id) <;> simp [List.filter, hft, ih ts2 hts2]

/-- Dropping a worker of another request does not change the workers
belonging to `id`. -/
theorem dropTask_filter_ne (id id2 : String) (ph : Phase) (ws ws2 : List Task)
    (h : dropTask id2 ph ws = some ws2) (hne : id2 ≠ id) :
    ws2.filter (fun t => t.tid == id) = ws.filter (fun t => t.tid == id) := by
  induction ws generalizing ws2 with
  | nil => simp [dropTask] at h
  | cons t ts ih =>
    by_cases hit : t.tid = id2 ∧ t.phase = ph
    · rw [dropTask, if_pos hit] at h
      injection h with h
      subst h
      have htne : (t.tid == id) = false := by
        rw [hit.1]
        exact beq_eq_false_iff_ne.mpr hne
      simp [List.filter, htne]
    · rw [dropTask, if_neg hit] at h
      obtain ⟨ts2, hts2, hmap⟩ := Option.map_eq_some'.mp h
      subst hmap
      cases hft : (t.tid == id) <;> simp [List.filter, hft, ih ts2 hts2]

/-- When at most one worker belongs to `id`, advancing it rewrites the
singleton filter accordingly. -/
theorem advanceTask_filter_self (id : String) (ph ph2 : Phase) (ws ws2 : List Task)
    (h : advanceTask id ph ph2 ws = some ws2)
    (hlen : (ws.filter (fun t => t.tid == id)).length ≤ 1) :
    ∃ t, ws.filter (fun t2 => t2.tid == id) = [t] ∧ t.tid = id ∧ t.phase = ph ∧
      ws2.filter (fun t2 => t2.tid == id) = [{ t with phase := ph2 }] := by
  induction ws generalizing ws2 with
  | nil => simp [advanceTask] at h
  | cons t ts ih =>
    by_cases hit : t.tid = id ∧ t.phase = ph
    · rw [advanceTask, if_pos hit] at h
      injection h with h
      subst h
      have htid : (t.tid == id) = true := beq_iff_eq.mpr hit.1
      rw [filter_cons_pos (fun t2 => t2.tid == id) t ts htid] at hlen
      have hfts : ts.filter (fun t2 => t2.tid == id) = [] :=
        List.eq_nil_of_length_eq_zero (by simpa using hlen)
      refine ⟨t, ?_, hit.1, hit.2, ?_⟩
      · rw [filter_cons_pos (fun t2 => t2.tid == id) t ts htid, hfts]
      · rw [filter_cons_pos (fun t2 => t2.tid == id) { t with phase := ph2 } ts
            (by simpa using htid), hfts]
    · rw [advanceTask, if_neg hit] at h
      obtain ⟨ts2, hts2, hmap⟩ := Option.map_eq_some'.mp h
      subst hmap
      cases hft : (t.tid == id) with
      | true =>
        rw [filter_cons_pos (fun t2 => t2.tid == id) t ts hft] at hlen
        have hfts : ts.filter (fun t3 => t3.tid == id) = [] :=
          List.eq_nil_of_length_eq_zero (by simpa using hlen)
        obtain ⟨t2, ht2, htid2, hph2⟩ := advanceTask_mem id ph ph2 ts ts2 hts2
        have hmem : t2 ∈ ts.filter (fun t3 => t3.tid == id) :=
          List.mem_filter.mpr ⟨ht2, beq_iff_eq.mpr htid2⟩
        rw [hfts] at hmem
        simp at hmem
      | false =>
        rw [filter_cons_neg (fun t2 => t2.tid == id) t ts hft] at hlen
        obtain ⟨t2, hf1, ht1, ht2, hf2⟩ := ih ts2 hts2 hlen
        refine ⟨t2, ?_, ht1, ht2, ?_⟩
        · rw [filter_cons_neg (fun t3 => t3.tid == id) t ts hft, hf1]
        · rw [filter_cons_neg (fun t3 => t3.tid == id) t ts2 hft, hf2]

/-- When at most one worker belongs to `id`, dropping it empties the
singleton filter. -/
theorem dropTask_filter_self (id : String) (ph : Phase) (ws ws2 : List Task)
    (h : dropTask id ph ws = some ws2)
    (hlen : (ws.filter (fun t => t.tid == id)).length ≤ 1) :
    ∃ t, ws.filter (fun t2 => t2.tid == id) = [t] ∧ t.tid = id ∧ t.phase = ph ∧
      ws2.filter (fun t2 => t2.tid == id) = [] := by
  induction ws generalizing ws2 with
  | nil => simp [dropTask] at h
  | cons t ts ih =>
    by_cases hit : t.tid = id ∧ t.phase = ph
    · rw [dropTask, if_pos hit] at h
      injection h with h
      subst h
      have htid : (t.tid == id) = true := beq_iff_eq.mpr hit.1
      rw [filter_cons_pos (fun t2 => t2.tid == id) t ts htid] at hlen
      have hfts : ts.filter (fun t2 => t2.tid == id) = [] :=
        List.eq_nil_of_length_eq_zero (by simpa using hlen)
      refine ⟨t, ?_, hit.1, hit.2, hfts⟩
      rw [filter_cons_pos (fun t2 => t2.tid == id) t ts htid, hfts]
    · rw [dropTask, if_neg hit] at h
      obtain ⟨ts2, hts2, hmap⟩ := Option.map_eq_some'.mp h
      subst hmap
      cases hft : (t.tid == id) with
      | true =>
        rw [filter_cons_pos (fun t2 => t2.tid == id) t ts hft] at hlen
        have hfts : ts.filter (fun t3 => t3.tid == id) = [] :=
          List.eq_nil_of_length_eq_zero (by simpa using hlen)
        obtain ⟨t2, ht2, htid2, hph2⟩ := dropTask_mem id ph ts ts2 hts2
        have hmem : t2 ∈ ts.filter (fun t3 => t3.tid == id) :=
          List.mem_filter.mpr ⟨ht2, beq_iff_eq.mpr htid2⟩
        rw [hfts] at hmem
        simp at hmem
      | false =>
        rw [filter_cons_neg (fun t2 => t2.tid == id) t ts hft] at hlen
        obtain ⟨t2, hf1, ht1, ht2, hf2⟩ := ih ts2 hts2 hlen
        refine ⟨t2, ?_, ht1, ht2, ?_⟩
        · rw [filter_cons_neg (fun t3 => t3.tid == id) t ts hft, hf1]
        · rw [filter_cons_neg (fun t3 => t3.tid == id) t ts2 hft, hf2]

/-- A step that leaves the record slot unchanged is forward. -/
theorem forward_of_lookup_eq (id : String) (s s2 : SState)
    (h : s2.table.lookup id = s.table.lookup id) : Forward id s s2 :=
  ⟨by rw [h], fun r hr _ => by rw [h]; exact hr⟩

/-- `Inv` only depends on the workers for `id` and the record at `id`. -/
theorem inv_of_eq (id : String) (s s2 : SState) (hInv : Inv id s)
    (ht : tasksFor id s2 = tasksFor id s)
    (hl : s2.table.lookup id = s.table.lookup id) : Inv id s2 := by
  constructor
  · rw [ht]
    exact hInv.1
  · intro t htmem
    rw [hl]
    exact hInv.2 t (ht ▸ htmem)

/-- Under the single-submission invariant, every step that is neither a
submission for `id` nor a cleanup failure for `id` preserves the invariant
and moves the record at `id` only forward. -/
theorem step_inv_forward (validTokens : List String) (id : String) (s : SState)
    (lb : Label) (hInv : Inv id s)
    (hns : isSubmitFor id lb = false)
    (hncf : isCleanupFailFor id lb = false) :
    Inv id (step validTokens s lb) ∧ Forward id s (step validTokens s lb) := by
  cases lb with
  | poll token id2 => exact ⟨hInv, forward_of_lookup_eq id s s rfl⟩
  | submit token id2 image =>
    have hid : id2 ≠ id := by simpa [isSubmitFor] using hns
    simp only [step]
    split
    · refine ⟨inv_of_eq id s _ hInv ?_ ?_, forward_of_lookup_eq id s _ ?_⟩
      · show (s.workers ++ [({ tid := id2, image := image, phase := .pending } : Task)]).filter
            (fun t => t.tid == id) = tasksFor id s
        rw [List.filter_append]
        have : List.filter (fun t => t.tid == id)
            [({ tid := id2, image := image, phase := Phase.pending } : Task)] = [] := by
          simp [List.filter, beq_eq_false_iff_ne.mpr hid]
        rw [this, List.append_nil]
        rfl
      · exact lookup_cons_ne id2 id queuedRec s.table (Ne.symm hid)
      · exact lookup_cons_ne id2 id queuedRec s.table (Ne.symm hid)
    · exact ⟨hInv, forward_of_lookup_eq id s s rfl⟩
  | wStart id2 =>
    cases hws : advanceTask id2 .pending .running s.workers with
    | none => simp only [step, hws]; exact ⟨hInv, forward_of_lookup_eq id s s rfl⟩
    | some ws2 =>
      simp only [step, hws]
      by_cases hid : id2 = id
      · subst hid
        obtain ⟨t, hf1, ht1, ht2, hf2⟩ :=
          advanceTask_filter_self id2 .pending .running s.workers ws2 hws hInv.1
        have hlook : s.table.lookup id2 = some queuedRec := by
          have := hInv.2 t (by rw [show tasksFor id2 s = [t] from hf1]; simp)
          rw [ht2] at this
          exact this
        refine ⟨⟨?_, ?_⟩, ?_, ?_⟩
        · show (ws2.filter (fun t2 => t2.tid == id2)).length ≤ 1
          rw [hf2]
          simp
        · intro t2 ht2mem
          have hmem2 : t2 ∈ ws2.filter (fun t3 => t3.tid == id2) := ht2mem
          rw [hf2] at hmem2
          have ht2eq : t2 = { t with phase := .running } := by simpa using hmem2
          rw [ht2eq]
          show taskOk .running (((id2, processingRec) :: s.table).lookup id2)
          rw [lookup_cons_self]
          rfl
        · show rank (s.table.lookup id2)
              ≤ rank (((id2, processingRec) :: s.table).lookup id2)
          rw [hlook, lookup_cons_self]
          show (1 : Nat) ≤ 2
          decide
        · intro r hr hter
          rw [hlook] at hr
          injection hr with hr
          subst hr
          simp [isTerminal, queuedRec] at hter
      · refine ⟨inv_of_eq id s _ hInv ?_ ?_, forward_of_lookup_eq id s _ ?_⟩
        · exact advanceTask_filter_ne id id2 .pending .running s.workers ws2 hws hid
        · exact lookup_cons_ne id2 id processingRec s.table (Ne.symm hid)
        · exact lookup_cons_ne id2 id processingRec s.table (Ne.symm hid)
  | wDecodeOk id2 =>
    cases hws : advanceTask id2 .running .staged s.workers with
    | none => simp only [step, hws]; exact ⟨hInv, forward_of_lookup_eq id s s rfl⟩
    | some ws2 =>
      simp only [step, hws]
      by_cases hid : id2 = id
      · subst hid
        obtain ⟨t, hf1, ht1, ht2, hf2⟩ :=
          advanceTask_filter_self id2 .running .staged s.workers ws2 hws hInv.1
        have hlook : s.table.lookup id2 = some processingRec := by
          have := hInv.2 t (by rw [show tasksFor id2 s = [t] from hf1]; simp)
          rw [ht2] at this
          exact this
        refine ⟨⟨?_, ?_⟩, forward_of_lookup_eq id2 s _ rfl⟩
        · show (ws2.filter (fun t2 => t2.tid == id2)).length ≤ 1
          rw [hf2]
          simp
        · intro t2 ht2mem
          have hmem2 : t2 ∈ ws2.filter (fun t3 => t3.tid == id2) := ht2mem
          rw [hf2] at hmem2
          have ht2eq : t2 = { t with phase := .staged } := by simpa using hmem2
          rw [ht2eq]
          show taskOk .staged (s.table.lookup id2)
          rw [hlook]
          rfl
      · refine ⟨inv_of_eq id s _ hInv ?_ rfl, forward_of_lookup_eq id s _ rfl⟩
        exact advanceTask_filter_ne id id2 .running .staged s.workers ws2 hws hid
  | wDecodeFail id2 msg =>
    cases hws : dropTask id2 .running s.workers with
    | none => simp only [step, hws]; exact ⟨hInv, forward_of_lookup_eq id s s rfl⟩
    | some ws2 =>
      simp only [step, hws]
      by_cases hid : id2 = id
      · subst hid
        obtain ⟨t, hf1, ht1, ht2, hf2⟩ :=
          dropTask_filter_self id2 .running s.workers ws2 hws hInv.1
        have hlook : s.table.lookup id2 = some processingRec := by
          have := hInv.2 t (by rw [show tasksFor id2 s = [t] from hf1]; simp)
          rw [ht2] at this
          exact this
        refine ⟨⟨?_, ?_⟩, ?_, ?_⟩
        · show (ws2.filter (fun t2 => t2.tid == id2)).length ≤ 1
          rw [hf2]
          simp
        · intro t2 ht2mem
          have hmem2 : t2 ∈ ws2.filter (fun t3 => t3.tid == id2) := ht2mem
          rw [hf2] at hmem2
          simp at hmem2
        · show rank (s.table.lookup id2)
              ≤ rank (((id2, errorRec msg) :: s.table).lookup id2)
          rw [hlook, lookup_cons_self]
          show (2 : Nat) ≤ 3
          decide
        · intro r hr hter
          rw [hlook] at hr
          injection hr with hr
          subst hr
          simp [isTerminal, processingRec] at hter
      · refine ⟨inv_of_eq id s _ hInv ?_ ?_, forward_of_lookup_eq id s _ ?_⟩
        · exact dropTask_filter_ne id id2 .running s.workers ws2 hws hid
        · exact lookup_cons_ne id2 id (errorRec msg) s.table (Ne.symm hid)
        · exact lookup_cons_ne id2 id (errorRec msg) s.table (Ne.symm hid)
  | wWorkOk id2 relPath =>
    cases hws : advanceTask id2 .staged .cleaning s.workers with
    | none => simp only [step, hws]; exact ⟨hInv, forward_of_lookup_eq id s s rfl⟩
    | some ws2 =>
      simp only [step, hws]
      by_cases hid : id2 = id
      · subst hid
        obtain ⟨t, hf1, ht1, ht2, hf2⟩ :=
          advanceTask_filter_self id2 .staged .cleaning s.workers ws2 hws hInv.1
        have hlook : s.table.lookup id2 = some processingRec := by
          have := hInv.2 t (by rw [show tasksFor id2 s = [t] from hf1]; simp)
          rw [ht2] at this
          exact this
        refine ⟨⟨?_, ?_⟩, ?_, ?_⟩
        · show (ws2.filter (fun t2 => t2.tid == id2)).length ≤ 1
          rw [hf2]
          simp
        · intro t2 ht2mem
          have hmem2 : t2 ∈ ws2.filter (fun t3 => t3.tid == id2) := ht2mem
          rw [hf2] at hmem2
          have ht2eq : t2 = { t with phase := .cleaning } := by simpa using hmem2
          rw [ht2eq]
          show taskOk .cleaning (((id2, completedRec relPath) :: s.table).lookup id2)
          rw [lookup_cons_self]
          exact ⟨relPath, rfl⟩
        · show rank (s.table.lookup id2)
              ≤ rank (((id2, completedRec relPath) :: s.table).lookup id2)
          rw [hlook, lookup_cons_self]
          show (2 : Nat) ≤ 3
          decide
        · intro r hr hter
          rw [hlook] at hr
          injection hr with hr
          subst hr
          simp [isTerminal, processingRec] at hter
      · refine ⟨inv_of_eq id s _ hInv ?_ ?_, forward_of_lookup_eq id s _ ?_⟩
        · exact advanceTask_filter_ne id id2 .staged .cleaning s.workers ws2 hws hid
        · exact lookup_cons_ne id2 id (completedRec relPath) s.table (Ne.symm hid)
        · exact lookup_cons_ne id2 id (completedRec relPath) s.table (Ne.symm hid)
  | wWorkFail id2 msg =>
    cases hws : dropTask id2 .staged s.workers with
    | none => simp only [step, hws]; exact ⟨hInv, forward_of_lookup_eq id s s rfl⟩
    | some ws2 =>
      simp only [step, hws]
      by_cases hid : id2 = id
      · subst hid
        obtain ⟨t, hf1, ht1, ht2, hf2⟩ :=
          dropTask_filter_self id2 .staged s.workers ws2 hws hInv.1
        have hlook : s.table.lookup id2 = some processingRec := by
          have := hInv.2 t (by rw [show tasksFor id2 s = [t] from hf1]; simp)
          rw [ht2] at this
          exact this
        refine ⟨⟨?_, ?_⟩, ?_, ?_⟩
        · show (ws2.filter (fun t2 => t2.tid == id2)).length ≤ 1
          rw [hf2]
          simp
        · intro t2 ht2mem
          have hmem2 : t2 ∈ ws2.filter (fun t3 => t3.tid == id2) := ht2mem
          rw [hf2] at hmem2
          simp at hmem2
        · show rank (s.table.lookup id2)
              ≤ rank (((id2, errorRec msg) :: s.table).lookup id2)
          rw [hlook, lookup_cons_self]
          show (2 : Nat) ≤ 3
          decide
        · intro r hr hter
          rw [hlook] at hr
          injection hr with hr
          subst hr
          simp [isTerminal, processingRec] at hter
      · refine ⟨inv_of_eq id s _ hInv ?_ ?_, forward_of_lookup_eq id s _ ?_⟩
        · exact dropTask_filter_ne id id2 .staged s.workers ws2 hws hid
        · exact lookup_cons_ne id2 id (errorRec msg) s.table (Ne.symm hid)
        · exact lookup_cons_ne id2 id (errorRec msg) s.table (Ne.symm hid)
  | wCleanupOk id2 =>
    cases hws : dropTask id2 .cleaning s.workers with
    | none => simp only [step, hws]; exact ⟨hInv, forward_of_lookup_eq id s s rfl⟩
    | some ws2 =>
      simp only [step, hws]
      by_cases hid : id2 = id
      · subst hid
        obtain ⟨t, hf1, ht1, ht2, hf2⟩ :=
          dropTask_filter_self id2 .cleaning s.workers ws2 hws hInv.1
        refine ⟨⟨?_, ?_⟩, forward_of_lookup_eq id2 s _ rfl⟩
        · show (ws2.filter (fun t2 => t2.tid == id2)).length ≤ 1
          rw [hf2]
          simp
        · intro t2 ht2mem
          have hmem2 : t2 ∈ ws2.filter (fun t3 => t3.tid == id2) := ht2mem
          rw [hf2] at hmem2
          simp at hmem2
      · refine ⟨inv_of_eq id s _ hInv ?_ rfl, forward_of_lookup_eq id s _ rfl⟩
        exact dropTask_filter_ne id id2 .cleaning s.workers ws2 hws hid
  | wCleanupFail id2 msg =>
    have hid : id2 ≠ id := by simpa [isCleanupFailFor] using hncf
    cases hws : dropTask id2 .cleaning s.workers with
    | none => simp only [step, hws]; exact ⟨hInv, forward_of_lookup_eq id s s rfl⟩
    | some ws2 =>
      simp only [step, hws]
      refine ⟨inv_of_eq id s _ hInv ?_ ?_, forward_of_lookup_eq id s _ ?_⟩
      · exact dropTask_filter_ne id id2 .cleaning s.workers ws2 hws hid
      · exact lookup_cons_ne id2 id (errorRec msg) s.table (Ne.symm hid)
      · exact lookup_cons_ne id2 id (errorRec msg) s.table (Ne.symm hid)

/-- A request with no worker cannot be advanced. -/
theorem advanceTask_none_of_fresh (id : String) (ph ph2 : Phase) (ws : List Task)
    (hf : ws.filter (fun t => t.tid == id) = []) :
    advanceTask id ph ph2 ws = none := by
  cases hadv : advanceTask id ph ph2 ws with
  | none => rfl
  | some ws2 =>
    obtain ⟨t, ht, htid, _⟩ := advanceTask_mem id ph ph2 ws ws2 hadv
    have : t ∈ ws.filter (fun t2 => t2.tid == id) :=
      List.mem_filter.mpr ⟨ht, beq_iff_eq.mpr htid⟩
    rw [hf] at this
    simp at this

/-- A request with no worker cannot be dropped. -/
theorem dropTask_none_of_fresh (id : String) (ph : Phase) (ws : List Task)
    (hf : ws.filter (fun t => t.tid == id) = []) :
    dropTask id ph ws = none := by
  cases hadv : dropTask id ph ws with
  | none => rfl
  | some ws2 =>
    obtain ⟨t, ht, htid, _⟩ := dropTask_mem id ph ws ws2 hadv
    have : t ∈ ws.filter (fun t2 => t2.tid == id) :=
      List.mem_filter.mpr ⟨ht, beq_iff_eq.mpr htid⟩
    rw [hf] at this
    simp at this

/-- An empty record slot can only move forward. -/
theorem forward_of_none (id : String) (s s2 : SState)
    (h : s.table.lookup id = none) : Forward id s s2 :=
  ⟨by rw [h]; exact Nat.zero_le _,
   fun r hr _ => by rw [h] at hr; exact absurd hr (by simp)⟩

/-- A never-submitted request satisfies the worker invariant vacuously. -/
theorem inv_of_fresh (id : String) (s : SState) (hF : Fresh id s) : Inv id s := by
  constructor
  · rw [show tasksFor id s = [] from hF.2]
    simp
  · intro t ht
    rw [hF.2] at ht
    simp at ht

/-- Before any submission for `id`, every step that is not that submission
keeps the request fresh and moves its (absent) record forward. -/
theorem step_fresh (validTokens : List String) (id : String) (s : SState) (lb : Label)
    (hF : Fresh id s) (hns : isSubmitFor id lb = false) :
    Fresh id (step validTokens s lb) ∧ Forward id s (step validTokens s lb) := by
  have hfilter : s.workers.filter (fun t => t.tid == id) = [] := hF.2
  cases lb with
  | poll token id2 => exact ⟨hF, forward_of_none id s s hF.1⟩
  | submit token id2 image =>
    have hid : id2 ≠ id := by simpa [isSubmitFor] using hns
    simp only [step]
    split
    · refine ⟨⟨?_, ?_⟩, forward_of_none id s _ hF.1⟩
      · exact lookup_cons_ne id2 id queuedRec s.table (Ne.symm hid) ▸ hF.1
      · show (s.workers ++ [({ tid := id2, image := image, phase := .pending } : Task)]).filter
            (fun t => t.tid == id) = []
        rw [List.filter_append, hfilter]
        simp [List.filter, beq_eq_false_iff_ne.mpr hid]
    · exact ⟨hF, forward_of_none id s s hF.1⟩
  | wStart id2 =>
    by_cases hid : id2 = id
    · subst hid
      simp only [step, advanceTask_none_of_fresh id2 .pending .running s.workers hfilter]
      exact ⟨hF, forward_of_none id2 s s hF.1⟩
    · cases hws : advanceTask id2 .pending .running s.workers with
      | none => simp only [step, hws]; exact ⟨hF, forward_of_none id s s hF.1⟩
      | some ws2 =>
        simp only [step, hws]
        refine ⟨⟨?_, ?_⟩, forward_of_none id s _ hF.1⟩
        · exact lookup_cons_ne id2 id processingRec s.table (Ne.symm hid) ▸ hF.1
        · show ws2.filter (fun t => t.tid == id) = []
          rw [advanceTask_filter_ne id id2 .pending .running s.workers ws2 hws hid]
          exact hfilter
  | wDecodeOk id2 =>
    by_cases hid : id2 = id
    · subst hid
      simp only [step, advanceTask_none_of_fresh id2 .running .staged s.workers hfilter]
      exact ⟨hF, forward_of_none id2 s s hF.1⟩
    · cases hws : advanceTask id2 .running .staged s.workers with
      | none => simp only [step, hws]; exact ⟨hF, forward_of_none id s s hF.1⟩
      | some ws2 =>
        simp only [step, hws]
        refine ⟨⟨hF.1, ?_⟩, forward_of_none id s _ hF.1⟩
        show ws2.filter (fun t => t.tid == id) = []
        rw [advanceTask_filter_ne id id2 .running .staged s.workers ws2 hws hid]
        exact hfilter
  | wDecodeFail id2 msg =>
    by_cases hid : id2 = id
    · subst hid
      simp only [step, dropTask_none_of_fresh id2 .running s.workers hfilter]
      exact ⟨hF, forward_of_none id2 s s hF.1⟩
    · cases hws : dropTask id2 .running s.workers with
      | none => simp only [step, hws]; exact ⟨hF, forward_of_none id s s hF.1⟩
      | some ws2 =>
        simp only [step, hws]
        refine ⟨⟨?_, ?_⟩, forward_of_none id s _ hF.1⟩
        · exact lookup_cons_ne id2 id (errorRec msg) s.table (Ne.symm hid) ▸ hF.1
        · show ws2.filter (fun t => t.tid == id) = []
          rw [dropTask_filter_ne id id2 .running s.workers ws2 hws hid]
          exact hfilter
  | wWorkOk id2 relPath =>
    by_cases hid : id2 = id
    · subst hid
      simp only [step, advanceTask_none_of_fresh id2 .staged .cleaning s.workers hfilter]
      exact ⟨hF, forward_of_none id2 s s hF.1⟩
    · cases hws : advanceTask id2 .staged .cleaning s.workers with
      | none => simp only [step, hws]; exact ⟨hF, forward_of_none id s s hF.1⟩
      | some ws2 =>
        simp only [step, hws]
        refine ⟨⟨?_, ?_⟩, forward_of_none id s _ hF.1⟩
        · exact lookup_cons_ne id2 id (completedRec relPath) s.table (Ne.symm hid) ▸ hF.1
        · show ws2.filter (fun t => t.tid == id) = []
          rw [advanceTask_filter_ne id id2 .staged .cleaning s.workers ws2 hws hid]
          exact hfilter
  | wWorkFail id2 msg =>
    by_cases hid : id2 = id
    · subst hid
      simp only [step, dropTask_none_of_fresh id2 .staged s.workers hfilter]
      exact ⟨hF, forward_of_none id2 s s hF.1⟩
    · cases hws : dropTask id2 .staged s.workers with
      | none => simp only [step, hws]; exact ⟨hF, forward_of_none id s s hF.1⟩
      | some ws2 =>
        simp only [step, hws]
        refine ⟨⟨?_, ?_⟩, forward_of_none id s _ hF.1⟩
        · exact lookup_cons_ne id2 id (errorRec msg) s.table (Ne.symm hid) ▸ hF.1
        · show ws2.filter (fun t => t.tid == id) = []
          rw [dropTask_filter_ne id id2 .staged s.workers ws2 hws hid]
          exact hfilter
  | wCleanupOk id2 =>
    by_cases hid : id2 = id
    · subst hid
      simp only [step, dropTask_none_of_fresh id2 .cleaning s.workers hfilter]
      exact ⟨hF, forward_of_none id2 s s hF.1⟩
    · cases hws : dropTask id2 .cleaning s.workers with
      | none => simp only [step, hws]; exact ⟨hF, forward_of_none id s s hF.1⟩
      | some ws2 =>
        simp only [step, hws]
        refine ⟨⟨hF.1, ?_⟩, forward_of_none id s _ hF.1⟩
        show ws2.filter (fun t => t.tid == id) = []
        rw [dropTask_filter_ne id id2 .cleaning s.workers ws2 hws hid]
        exact hfilter
  | wCleanupFail id2 msg =>
    by_cases hid : id2 = id
    · subst hid
      simp only [step, dropTask_none_of_fresh id2 .cleaning s.workers hfilter]
      exact ⟨hF, forward_of_none id2 s s hF.1⟩
    · cases hws : dropTask id2 .cleaning s.workers with
      | none => simp only [step, hws]; exact ⟨hF, forward_of_none id s s hF.1⟩
      | some ws2 =>
        simp only [step, hws]
        refine ⟨⟨?_, ?_⟩, forward_of_none id s _ hF.1⟩
        · exact lookup_cons_ne id2 id (errorRec msg) s.table (Ne.symm hid) ▸ hF.1
        · show ws2.filter (fun t => t.tid == id) = []
          rw [dropTask_filter_ne id id2 .cleaning s.workers ws2 hws hid]
          exact hfilter

/-- A submission hitting a fresh request establishes the worker invariant:
either it is rejected (state unchanged) or it writes the queued record and
schedules exactly one pending worker. -/
theorem submit_inv_of_fresh (validTokens : List String) (id : String) (s : SState)
    (token id2 image : String) (hF : Fresh id s) :
    Inv id (step validTokens s (.submit token id2 image)) := by
  by_cases hid : id2 = id
  · subst hid
    have hfilter : s.workers.filter (fun t => t.tid == id2) = [] := hF.2
    simp only [step]
    split
    · constructor
      · show ((s.workers ++ [({ tid := id2, image := image, phase := .pending } : Task)]).filter
            (fun t => t.tid == id2)).length ≤ 1
        rw [List.filter_append, hfilter]
        simp [List.filter]
      · intro t ht
        have hmem2 : t ∈ (s.workers ++
            [({ tid := id2, image := image, phase := .pending } : Task)]).filter
              (fun t2 => t2.tid == id2) := ht
        rw [List.filter_append, hfilter] at hmem2
        simp [List.filter] at hmem2
        rw [hmem2]
        show taskOk .pending (((id2, queuedRec) :: s.table).lookup id2)
        rw [lookup_cons_self]
        rfl
    · exact inv_of_fresh id2 s hF
  · exact inv_of_fresh id _
      (step_fresh validTokens id s (.submit token id2 image) hF
        (by simp [isSubmitFor, beq_eq_false_iff_ne.mpr hid])).1

/-- Number of submissions (accepted or not) for `id` in a trace. -/
def countSubmits (id : String) (trace : List Label) : Nat :=
  trace.countP (isSubmitFor id)

/-- Does the trace contain a cleanup failure for `id`? -/
def hasCleanupFailFor (id : String) (trace : List Label) : Bool :=
  trace.any (isCleanupFailFor id)

/-- Once the worker invariant holds and no further submission or cleanup
failure for `id` occurs, every remaining step moves the record at `id`
forward. -/
theorem run_inv_forward_post (validTokens : List String) (id : String)
    (trace : List Label) :
    ∀ (s : SState), Inv id s →
    (∀ lb ∈ trace, isSubmitFor id lb = false) →
    (∀ lb ∈ trace, isCleanupFailFor id lb = false) →
    ∀ pre lb post, trace = pre ++ lb :: post →
      Forward id (run validTokens s pre) (step validTokens (run validTokens s pre) lb) := by
  induction trace with
  | nil =>
    intro s _ _ _ pre lb post h
    exact absurd h (by simp)
  | cons lb0 tr ih =>
    intro s hInv hsub hcf pre lb post hsplit
    cases pre with
    | nil =>
      simp only [List.nil_append] at hsplit
      injection hsplit with h1 h2
      subst h1
      exact (step_inv_forward validTokens id s lb0 hInv
        (hsub lb0 (by simp)) (hcf lb0 (by simp))).2
    | cons p ps =>
      injection hsplit with h1 h2
      subst h1
      have hInv2 := (step_inv_forward validTokens id s lb0 hInv
        (hsub lb0 (by simp)) (hcf lb0 (by simp))).1
      exact ih (step validTokens s lb0) hInv2
        (fun l hl => hsub l (List.mem_cons_of_mem lb0 hl))
        (fun l hl => hcf l (List.mem_cons_of_mem lb0 hl)) ps lb post h2

/-- From a fresh request, a trace with at most one submission for `id` and
no cleanup failure for `id` moves the record at `id` only forward at every
step. -/
theorem run_fresh_forward (validTokens : List String) (id : String)
    (trace : List Label) :
    ∀ (s : SState), Fresh id s →
    countSubmits id trace ≤ 1 →
    (∀ lb ∈ trace, isCleanupFailFor id lb = false) →
    ∀ pre lb post, trace = pre ++ lb :: post →
      Forward id (run validTokens s pre) (step validTokens (run validTokens s pre) lb) := by
  induction trace with
  | nil =>
    intro s _ _ _ pre lb post h
    exact absurd h (by simp)
  | cons lb0 tr ih =>
    intro s hF hsub hcf pre lb post hsplit
    by_cases hs0 : isSubmitFor id lb0 = true
    · have htr0 : ∀ l ∈ tr, isSubmitFor id l = false := by
        have hc : tr.countP (isSubmitFor id) = 0 := by
          have h1 : countSubmits id (lb0 :: tr) = tr.countP (isSubmitFor id) + 1 := by
            simp [countSubmits, List.countP_cons, hs0]
          omega
        intro l hl
        have := List.countP_eq_zero.mp hc l hl
        simpa using this
      obtain ⟨token, idv, image, hlb0⟩ : ∃ a b c, lb0 = Label.submit a b c := by
        cases lb0 <;> simp [isSubmitFor] at hs0 <;> exact ⟨_, _, _, rfl⟩
      have hInv1 : Inv id (step validTokens s lb0) := by
        rw [hlb0]
        exact submit_inv_of_fresh validTokens id s token idv image hF
      cases pre with
      | nil =>
        simp only [List.nil_append] at hsplit
        injection hsplit with h1 h2
        subst h1
        exact forward_of_none id s _ hF.1
      | cons p ps =>
        injection hsplit with h1 h2
        subst h1
        exact run_inv_forward_post validTokens id tr (step validTokens s lb0) hInv1
          htr0 (fun l hl => hcf l (List.mem_cons_of_mem lb0 hl)) ps lb post h2
    · have hs0f : isSubmitFor id lb0 = false := by
        cases h : isSubmitFor id lb0
        · rfl
        · exact absurd h hs0
      obtain ⟨hF1, hfwd1⟩ := step_fresh validTokens id s lb0 hF hs0f
      cases pre with
      | nil =>
        simp only [List.nil_append] at hsplit
        injection hsplit with h1 h2
        subst h1
        exact hfwd1
      | cons p ps =>
        injection hsplit with h1 h2
        subst h1
        refine ih (step validTokens s lb0) hF1 ?_
          (fun l hl => hcf l (List.mem_cons_of_mem lb0 hl)) ps lb post h2
        have h1 : countSubmits id (lb0 :: tr) = countSubmits id tr := by
          simp [countSubmits, List.countP_cons, hs0f]
        omega

/-- Running one more label is one more step. -/
theorem run_append_label (validTokens : List String) (s : SState)
    (pre : List Label) (lb : Label) :
    run validTokens s (pre ++ [lb]) = step validTokens (run validTokens s pre) lb := by
  simp [run, List.foldl_append]

/-! ## Claims -/

/-- C1 counterexample: submit is an operation of the service, and submitting
the same identifier again after the worker completed moves the record from
the terminal Completed state back to Queued — states do not only move
forward under every operation. -/
theorem c1_resubmission_counterexample :
    (run ["secret"] initState
        [.submit "secret" "r1" "img", .wStart "r1", .wDecodeOk "r1",
         .wWorkOk "r1" "m.glb", .wCleanupOk "r1"]).table.lookup "r1"
      = some (completedRec "m.glb") ∧
    isTerminal (completedRec "m.glb") ∧
    (run ["secret"] initState
        [.submit "secret" "r1" "img", .wStart "r1", .wDecodeOk "r1",
         .wWorkOk "r1" "m.glb", .wCleanupOk "r1",
         .submit "secret" "r1" "img2"]).table.lookup "r1" = some queuedRec ∧
    queuedRec ≠ completedRec "m.glb" ∧
    rank (some queuedRec) < rank (some (completedRec "m.glb")) :=
  ⟨by decide, Or.inl rfl, by decide, by decide, by decide⟩

/-- C1 amended: in every execution in which a request identifier is
submitted at most once and its final `shutil.rmtree` cleanup does not fail,
the record of that identifier only moves forward through
queued, processing, completed/error at every step, and once terminal it
never changes.  (A re-submission resets the record to Queued, and a cleanup
failure after success overwrites Completed with Error — the two exceptions
the code allows.) -/
theorem c1_forward_single_submission (validTokens : List String)
    (trace : List Label) (id : String)
    (hsub : countSubmits id trace ≤ 1)
    (hcf : hasCleanupFailFor id trace = false) :
    ∀ pre lb post, trace = pre ++ lb :: post →
      rank ((run validTokens initState pre).table.lookup id)
        ≤ rank ((run validTokens initState (pre ++ [lb])).table.lookup id) ∧
      ∀ r, (run validTokens initState pre).table.lookup id = some r → isTerminal r →
        (run validTokens initState (pre ++ [lb])).table.lookup id = some r := by
  intro pre lb post hsplit
  have hcf2 : ∀ l ∈ trace, isCleanupFailFor id l = false := by
    intro l hl
    have := List.any_eq_false.mp hcf l hl
    simpa using this
  have hfwd := run_fresh_forward validTokens id trace initState ⟨rfl, rfl⟩
    hsub hcf2 pre lb post hsplit
  rw [run_append_label]
  exact hfwd

/-- Witness for C1 (amended) on a full successful single-submission trace. -/
theorem c1_forward_single_submission_witness :
    (countSubmits "r1" [.submit "secret" "r1" "img", .wStart "r1", .wDecodeOk "r1",
        .wWorkOk "r1" "m.glb", .wCleanupOk "r1"] ≤ 1 ∧
     hasCleanupFailFor "r1" [.submit "secret" "r1" "img", .wStart "r1", .wDecodeOk "r1",
        .wWorkOk "r1" "m.glb", .wCleanupOk "r1"] = false) ∧
    (∀ pre lb post,
      ([.submit "secret" "r1" "img", .wStart "r1", .wDecodeOk "r1",
        .wWorkOk "r1" "m.glb", .wCleanupOk "r1"] : List Label) = pre ++ lb :: post →
      rank ((run ["secret"] initState pre).table.lookup "r1")
        ≤ rank ((run ["secret"] initState (pre ++ [lb])).table.lookup "r1") ∧
      ∀ r, (run ["secret"] initState pre).table.lookup "r1" = some r → isTerminal r →
        (run ["secret"] initState (pre ++ [lb])).table.lookup "r1" = some r) :=
  ⟨⟨by decide, by decide⟩,
   c1_forward_single_submission ["secret"]
     [.submit "secret" "r1" "img", .wStart "r1", .wDecodeOk "r1",
      .wWorkOk "r1" "m.glb", .wCleanupOk "r1"] "r1" (by decide) (by decide)⟩

/-- C2: an accepted submission writes a queued record before acknowledging,
and any later poll issued before a terminal write for that identifier finds
the record in a queued or processing state — never NotFound. -/
theorem c2_accepted_submit_pollable (validTokens : List String) (s : SState)
    (token id image tok2 : String) (rest : List Label)
    (htok : validate_token validTokens token = true) (hid : id ≠ "")
    (hnt : ∀ lb ∈ rest, terminalWriter id lb = false)
    (htok2 : validate_token validTokens tok2 = true) :
    (step validTokens s (.submit token id image)).table.lookup id = some queuedRec ∧
    ∃ r, get_status validTokens
        (run validTokens (step validTokens s (.submit token id image)) rest) tok2 id
          = .ok r ∧
      (r.state = .queued ∨ r.state = .processing) := by
  have hq : (step validTokens s (.submit token id image)).table.lookup id
      = some queuedRec := by
    simp only [step]
    rw [if_pos (And.intro htok hid)]
    exact lookup_cons_self id queuedRec s.table
  refine ⟨hq, ?_⟩
  obtain ⟨r, hr, hlr⟩ :=
    run_preserves_live validTokens (step validTokens s (.submit token id image)) rest id
      ⟨queuedRec, hq, Or.inl rfl⟩ hnt
  refine ⟨r, ?_, hlr⟩
  simp [get_status, htok2, hr]

/-- Witness for C2: submit, then let the worker start but not finish. -/
theorem c2_accepted_submit_pollable_witness :
    (validate_token ["secret"] "secret" = true ∧ ("r1" : String) ≠ "" ∧
     (∀ lb ∈ [Label.poll "secret" "r1", Label.wStart "r1", Label.wDecodeOk "r1"],
        terminalWriter "r1" lb = false)) ∧
    ((step ["secret"] initState (.submit "secret" "r1" "img")).table.lookup "r1"
        = some queuedRec ∧
     ∃ r, get_status ["secret"]
         (run ["secret"] (step ["secret"] initState (.submit "secret" "r1" "img"))
           [Label.poll "secret" "r1", Label.wStart "r1", Label.wDecodeOk "r1"]) "secret" "r1"
           = .ok r ∧
       (r.state = .queued ∨ r.state = .processing)) :=
  ⟨⟨by decide, by decide, by decide⟩,
   c2_accepted_submit_pollable ["secret"] initState "secret" "r1" "img" "secret"
     [Label.poll "secret" "r1", Label.wStart "r1", Label.wDecodeOk "r1"]
     (by decide) (by decide) (by decide) (by decide)⟩

/-- C5: every caught worker failure — decode, staging, upload, queue,
completion wait, artifact location (and even the final cleanup) — ends the
worker normally with this job's record set to Error carrying the message,
and touches no other job's record or temp directory.  The step function is
total: no failure label escapes as an exception of the model. -/
theorem c5_failures_captured (validTokens : List String) (s : SState) (lb : Label)
    (id msg : String) (ph : Phase)
    (hfail : failureInfo lb = some (id, msg, ph))
    (happ : (dropTask id ph s.workers).isSome = true) :
    (step validTokens s lb).table.lookup id = some (errorRec msg) ∧
    (∀ j, j ≠ id → (step validTokens s lb).table.lookup j = s.table.lookup j) ∧
    (step validTokens s lb).tmp = s.tmp := by
  obtain ⟨ws, hws⟩ := Option.isSome_iff_exists.mp happ
  cases lb with
  | submit token id2 image => simp [failureInfo] at hfail
  | poll token id2 => simp [failureInfo] at hfail
  | wStart id2 => simp [failureInfo] at hfail
  | wDecodeOk id2 => simp [failureInfo] at hfail
  | wWorkOk id2 relPath => simp [failureInfo] at hfail
  | wCleanupOk id2 => simp [failureInfo] at hfail
  | wDecodeFail id2 msg2 =>
    obtain ⟨h1, h2, h3⟩ : id2 = id ∧ msg2 = msg ∧ Phase.running = ph := by
      simpa [failureInfo] using hfail
    subst h1
    subst h2
    subst h3
    simp only [step, hws]
    exact ⟨lookup_cons_self id2 (errorRec msg2) s.table,
      fun j hj => lookup_cons_ne id2 j (errorRec msg2) s.table hj, trivial⟩
  | wWorkFail id2 msg2 =>
    obtain ⟨h1, h2, h3⟩ : id2 = id ∧ msg2 = msg ∧ Phase.staged = ph := by
      simpa [failureInfo] using hfail
    subst h1
    subst h2
    subst h3
    simp only [step, hws]
    exact ⟨lookup_cons_self id2 (errorRec msg2) s.table,
      fun j hj => lookup_cons_ne id2 j (errorRec msg2) s.table hj, trivial⟩
  | wCleanupFail id2 msg2 =>
    obtain ⟨h1, h2, h3⟩ : id2 = id ∧ msg2 = msg ∧ Phase.cleaning = ph := by
      simpa [failureInfo] using hfail
    subst h1
    subst h2
    subst h3
    simp only [step, hws]
    exact ⟨lookup_cons_self id2 (errorRec msg2) s.table,
      fun j hj => lookup_cons_ne id2 j (errorRec msg2) s.table hj, trivial⟩

/-- Witness for C5: an upload failure of one of two running jobs. -/
theorem c5_failures_captured_witness :
    (failureInfo (.wWorkFail "r1" "Failed to upload image to ComfyUI")
        = some ("r1", "Failed to upload image to ComfyUI", Phase.staged) ∧
     (dropTask "r1" .staged
        [{ tid := "r1", image := "a", phase := .staged },
         { tid := "r2", image := "b", phase := .staged }]).isSome = true) ∧
    ((step ["secret"]
        { table := [("r1", processingRec), ("r2", processingRec)],
          tmp := ["r1", "r2"],
          workers := [{ tid := "r1", image := "a", phase := .staged },
                      { tid := "r2", image := "b", phase := .staged }] }
        (.wWorkFail "r1" "Failed to upload image to ComfyUI")).table.lookup "r1"
          = some (errorRec "Failed to upload image to ComfyUI") ∧
     (∀ j, j ≠ "r1" →
        (step ["secret"]
          { table := [("r1", processingRec), ("r2", processingRec)],
            tmp := ["r1", "r2"],
            workers := [{ tid := "r1", image := "a", phase := .staged },
                        { tid := "r2", image := "b", phase := .staged }] }
          (.wWorkFail "r1" "Failed to upload image to ComfyUI")).table.lookup j
        = ({ table := [("r1", processingRec), ("r2", processingRec)],
             tmp := ["r1", "r2"],
             workers := [{ tid := "r1", image := "a", phase := .staged },
                         { tid := "r2", image := "b", phase := .staged }] } : SState).table.lookup j) ∧
     (step ["secret"]
        { table := [("r1", processingRec), ("r2", processingRec)],
          tmp := ["r1", "r2"],
          workers := [{ tid := "r1", image := "a", phase := .staged },
                      { tid := "r2", image := "b", phase := .staged }] }
        (.wWorkFail "r1" "Failed to upload image to ComfyUI")).tmp
       = ({ table := [("r1", processingRec), ("r2", processingRec)],
            tmp := ["r1", "r2"],
            workers := [{ tid := "r1", image := "a", phase := .staged },
                        { tid := "r2", image := "b", phase := .staged }] } : SState).tmp) :=
  ⟨⟨by decide, by decide⟩,
   c5_failures_captured ["secret"]
     { table := [("r1", processingRec), ("r2", processingRec)],
       tmp := ["r1", "r2"],
       workers := [{ tid := "r1", image := "a", phase := .staged },
                   { tid := "r2", image := "b", phase := .staged }] }
     (.wWorkFail "r1" "Failed to upload image to ComfyUI")
     "r1" "Failed to upload image to ComfyUI" .staged (by decide) (by decide)⟩

/-- C4: in every record reachable in the status table from process start —
submit's initial record and each worker update — the model URL is non-null
exactly when the record's state is completed. -/
theorem c4_model_url_iff_completed (validTokens : List String) (trace : List Label)
    (id : String) (r : JobRecord)
    (h : (run validTokens initState trace).table.lookup id = some r) :
    r.model_url.isSome = true ↔ r.state = .completed := by
  refine run_preserves_recordOk validTokens initState trace ?_ id r h
  intro id2 r2 hr2
  simp [initState, List.lookup] at hr2

/-- Witness for C4 at a trace reaching the completed state. -/
theorem c4_model_url_iff_completed_witness :
    (run ["secret"] initState
        [.submit "secret" "r1" "img", .wStart "r1", .wDecodeOk "r1",
         .wWorkOk "r1" "m.glb"]).table.lookup "r1" = some (completedRec "m.glb") ∧
    ((completedRec "m.glb").model_url.isSome = true ↔
      (completedRec "m.glb").state = .completed) :=
  ⟨by decide,
   c4_model_url_iff_completed ["secret"]
     [.submit "secret" "r1" "img", .wStart "r1", .wDecodeOk "r1", .wWorkOk "r1" "m.glb"]
     "r1" (completedRec "m.glb") (by decide)⟩

/-- C9 counterexample: on a decode failure the worker reaches the Error
terminal state while `/tmp/<requestId>` was never created — `os.makedirs`
only runs after `base64.b64decode` succeeds, so the directory is not
"created at the start of worker execution" nor "left in place" on this
failure path. -/
theorem c9_decode_failure_counterexample :
    (run ["secret"] initState
        [.submit "secret" "r1" "bad", .wStart "r1",
         .wDecodeFail "r1" "Invalid base64-encoded string"]).table.lookup "r1"
      = some (errorRec "Invalid base64-encoded string") ∧
    (run ["secret"] initState
        [.submit "secret" "r1" "bad", .wStart "r1",
         .wDecodeFail "r1" "Invalid base64-encoded string"]).tmp.contains "r1" = false :=
  ⟨by decide, by decide⟩

/-- C9 amended: the temp directory is created during staging once the base64
decode succeeds (never on a decode failure), no step other than the
successful cleanup ever removes it — in particular every failure after its
creation leaves it in place — the success write that precedes cleanup
records the Completed state, and the successful cleanup removes it. -/
theorem c9_tmpdir_lifecycle (validTokens : List String) (s : SState)
    (id relPath : String)
    (hdec : (advanceTask id .running .staged s.workers).isSome = true)
    (hwrk : (advanceTask id .staged .cleaning s.workers).isSome = true)
    (hcln : (dropTask id .cleaning s.workers).isSome = true) :
    (step validTokens s (.wDecodeOk id)).tmp.contains id = true ∧
    (∀ lb, lb ≠ .wCleanupOk id → s.tmp.contains id = true →
       (step validTokens s lb).tmp.contains id = true) ∧
    (step validTokens s (.wWorkOk id relPath)).table.lookup id
      = some (completedRec relPath) ∧
    (step validTokens s (.wCleanupOk id)).tmp.contains id = false := by
  refine ⟨?_, ?_, ?_, ?_⟩
  · obtain ⟨ws, hws⟩ := Option.isSome_iff_exists.mp hdec
    simp only [step, hws]
    simp
  · intro lb hlb htmp
    cases lb with
    | submit token id2 image =>
      simp only [step]
      split
      · exact htmp
      · exact htmp
    | poll token id2 => exact htmp
    | wStart id2 =>
      simp only [step]
      split
      · exact htmp
      · exact htmp
    | wDecodeOk id2 =>
      simp only [step]
      split
      · simp only [List.contains_cons]
        simp at htmp ⊢
        exact Or.inr htmp
      · exact htmp
    | wDecodeFail id2 msg =>
      simp only [step]
      split
      · exact htmp
      · exact htmp
    | wWorkOk id2 relPath2 =>
      simp only [step]
      split
      · exact htmp
      · exact htmp
    | wWorkFail id2 msg =>
      simp only [step]
      split
      · exact htmp
      · exact htmp
    | wCleanupOk id2 =>
      have hne : id ≠ id2 := fun hh => hlb (by rw [hh])
      simp only [step]
      split
      · simp at htmp ⊢
        exact ⟨htmp, hne⟩
      · exact htmp
    | wCleanupFail id2 msg =>
      simp only [step]
      split
      · exact htmp
      · exact htmp
  · obtain ⟨ws, hws⟩ := Option.isSome_iff_exists.mp hwrk
    simp only [step, hws]
    exact lookup_cons_self id (completedRec relPath) s.table
  · obtain ⟨ws, hws⟩ := Option.isSome_iff_exists.mp hcln
    simp only [step, hws]
    simp

/-- Witness for C9 (amended) at a state with three workers for the same
identifier, one per phase. -/
theorem c9_tmpdir_lifecycle_witness :
    ((advanceTask "r1" .running .staged
        [{ tid := "r1", image := "a", phase := .running },
         { tid := "r1", image := "b", phase := .staged },
         { tid := "r1", image := "c", phase := .cleaning }]).isSome = true ∧
     (advanceTask "r1" .staged .cleaning
        [{ tid := "r1", image := "a", phase := .running },
         { tid := "r1", image := "b", phase := .staged },
         { tid := "r1", image := "c", phase := .cleaning }]).isSome = true ∧
     (dropTask "r1" .cleaning
        [{ tid := "r1", image := "a", phase := .running },
         { tid := "r1", image := "b", phase := .staged },
         { tid := "r1", image := "c", phase := .cleaning }]).isSome = true) ∧
    ((step ["secret"]
        { table := [], tmp := ["r1"],
          workers := [{ tid := "r1", image := "a", phase := .running },
                      { tid := "r1", image := "b", phase := .staged },
                      { tid := "r1", image := "c", phase := .cleaning }] }
        (.wDecodeOk "r1")).tmp.contains "r1" = true ∧
     (∀ lb, lb ≠ .wCleanupOk "r1" →
        ({ table := [], tmp := ["r1"],
           workers := [{ tid := "r1", image := "a", phase := .running },
                       { tid := "r1", image := "b", phase := .staged },
                       { tid := "r1", image := "c", phase := .cleaning }] } : SState).tmp.contains
            "r1" = true →
        (step ["secret"]
          { table := [], tmp := ["r1"],
            workers := [{ tid := "r1", image := "a", phase := .running },
                        { tid := "r1", image := "b", phase := .staged },
                        { tid := "r1", image := "c", phase := .cleaning }] }
          lb).tmp.contains "r1" = true) ∧
     (step ["secret"]
        { table := [], tmp := ["r1"],
          workers := [{ tid := "r1", image := "a", phase := .running },
                      { tid := "r1", image := "b", phase := .staged },
                      { tid := "r1", image := "c", phase := .cleaning }] }
        (.wWorkOk "r1" "m.glb")).table.lookup "r1" = some (completedRec "m.glb") ∧
     (step ["secret"]
        { table := [], tmp := ["r1"],
          workers := [{ tid := "r1", image := "a", phase := .running },
                      { tid := "r1", image := "b", phase := .staged },
                      { tid := "r1", image := "c", phase := .cleaning }] }
        (.wCleanupOk "r1")).tmp.contains "r1" = false) :=
  ⟨⟨by decide, by decide, by decide⟩,
   c9_tmpdir_lifecycle ["secret"]
     { table := [], tmp := ["r1"],
       workers := [{ tid := "r1", image := "a", phase := .running },
                   { tid := "r1", image := "b", phase := .staged },
                   { tid := "r1", image := "c", phase := .cleaning }] }
     "r1" "m.glb" (by decide) (by decide) (by decide)⟩

/-- C7 counterexample: with two matching entries sharing the greatest
modification time, the scan of `run_workflow` keeps the first entry of the
directory listing, not the lexicographically smallest name the claim
prescribes (which the spec-worded locator picks). -/
theorem c7_tiebreak_counterexample :
    findLatest "a_" [("a_002.glb", 5), ("a_001.glb", 5)] = some "a_002.glb" ∧
    findLatestSpecWords "a_" [("a_002.glb", 5), ("a_001.glb", 5)] = some "a_001.glb" ∧
    ("a_002.glb" : String) ≠ "a_001.glb" :=
  ⟨by decide, by decide, by decide⟩

/-- C7 amended: over a listing whose modification times are positive, the
locator returns NotFound when the directory is missing or no entry matches
the prefix and the ".glb" suffix, and otherwise returns the matching entry
with the greatest modification time, breaking ties by the earliest position
in the directory listing (not by name). -/
theorem c7_find_latest_amended (basePre : String) (listing : List (String × Nat))
    (hpos : ∀ e ∈ listing, 0 < e.2) :
    findLatestInDir basePre none = none ∧
    (findLatest basePre listing = none ↔
      ∀ e ∈ listing, matchesModel basePre e = false) ∧
    (∀ f, findLatest basePre listing = some f ↔
      ∃ i : Nat, ∃ t : Nat, listing[i]? = some (f, t) ∧
        matchesModel basePre (f, t) = true ∧
        (∀ e ∈ listing, matchesModel basePre e = true → e.2 ≤ t) ∧
        (∀ j e, j < i → listing[j]? = some e → matchesModel basePre e = true → e.2 < t)) := by
  have hfl : findLatest basePre listing
      = match bestFrom basePre 0 listing with
        | none => none
        | some b => some b.1 := by
    rw [findLatest, scan_foldl_eq_bestFrom]
    cases bestFrom basePre 0 listing <;> rfl
  refine ⟨rfl, ?_, ?_⟩
  · rw [hfl]
    cases hb : bestFrom basePre 0 listing with
    | none =>
      constructor
      · intro _ e he
        have hle := (bestFrom_eq_none_iff basePre listing 0).mp hb e he
        cases hm : matchesModel basePre e
        · rfl
        · have h1 := hle hm
          have h2 := hpos e he
          omega
      · intro _
        rfl
    | some b =>
      constructor
      · intro hcontra
        exact absurd hcontra (by simp)
      · intro hall
        obtain ⟨b1, b2⟩ := b
        obtain ⟨i, hi, hm, _, _, _⟩ := (bestFrom_eq_some_iff basePre listing 0 b1 b2).mp hb
        have hfalse := hall (b1, b2) (List.getElem?_mem hi)
        rw [hm] at hfalse
        exact absurd hfalse (by decide)
  · intro f
    rw [hfl]
    constructor
    · intro hsome
      cases hb : bestFrom basePre 0 listing with
      | none =>
        rw [hb] at hsome
        exact absurd hsome (by simp)
      | some b =>
        rw [hb] at hsome
        obtain ⟨b1, b2⟩ := b
        have hbf : b1 = f := by simpa using hsome
        subst hbf
        obtain ⟨i, hi, hm, _, hbef, haft⟩ :=
          (bestFrom_eq_some_iff basePre listing 0 b1 b2).mp hb
        refine ⟨i, b2, hi, hm, ?_, hbef⟩
        intro e he hme
        obtain ⟨j, hj⟩ := List.getElem?_of_mem he
        rcases Nat.lt_trichotomy j i with hlt | heq | hgt
        · have := hbef j e hlt hj hme
          omega
        · subst heq
          rw [hj] at hi
          injection hi with hi
          simp [hi]
        · exact haft j e hgt hj hme
    · rintro ⟨i, t, hi, hm, hglob, hbef⟩
      have h0t : 0 < t := hpos (f, t) (List.getElem?_mem hi)
      have hb : bestFrom basePre 0 listing = some (f, t) :=
        (bestFrom_eq_some_iff basePre listing 0 f t).mpr
          ⟨i, hi, hm, h0t, hbef, fun j e hj hje hme => hglob e (List.getElem?_mem hje) hme⟩
      rw [hb]

/-- Witness for C7 (amended) at the spec's own example listing. -/
theorem c7_find_latest_amended_witness :
    (∀ e ∈ [("a_001.glb", 1), ("a_002.glb", 5), ("b_001.glb", 9)], 0 < e.2) ∧
    (findLatestInDir "a_" none = none ∧
     (findLatest "a_" [("a_001.glb", 1), ("a_002.glb", 5), ("b_001.glb", 9)] = none ↔
       ∀ e ∈ [("a_001.glb", 1), ("a_002.glb", 5), ("b_001.glb", 9)],
         matchesModel "a_" e = false) ∧
     (∀ f, findLatest "a_" [("a_001.glb", 1), ("a_002.glb", 5), ("b_001.glb", 9)] = some f ↔
       ∃ i : Nat, ∃ t : Nat,
         [("a_001.glb", 1), ("a_002.glb", 5), ("b_001.glb", 9)][i]? = some (f, t) ∧
         matchesModel "a_" (f, t) = true ∧
         (∀ e ∈ [("a_001.glb", 1), ("a_002.glb", 5), ("b_001.glb", 9)],
           matchesModel "a_" e = true → e.2 ≤ t) ∧
         (∀ j e, j < i → [("a_001.glb", 1), ("a_002.glb", 5), ("b_001.glb", 9)][j]? = some e →
           matchesModel "a_" e = true → e.2 < t))) :=
  ⟨by decide,
   c7_find_latest_amended "a_" [("a_001.glb", 1), ("a_002.glb", 5), ("b_001.glb", 9)]
     (by decide)⟩

/-- C8: with a token outside the configured set, both endpoints fail with
Unauthorized regardless of the payload (even an empty id, since
`validate_token` runs before the id check), a rejected submission leaves the
state untouched, and the empty configured set rejects every token. -/
theorem c8_unauthorized_rejection (validTokens : List String) (s : SState)
    (token id image tok2 : String)
    (h : validate_token validTokens token = false) :
    generate_model validTokens token id = .error .unauthorized ∧
    get_status validTokens s token id = .error .unauthorized ∧
    step validTokens s (.submit token id image) = s ∧
    validate_token [] tok2 = false := by
  refine ⟨?_, ?_, ?_, ?_⟩
  · simp [generate_model, h]
  · simp [get_status, h]
  · simp [step, h]
  · simp [validate_token]

/-- Witness for C8 at a concrete configuration, tokens and payload. -/
theorem c8_unauthorized_rejection_witness :
    validate_token ["secret"] "wrong" = false ∧
    (generate_model ["secret"] "wrong" "" = .error .unauthorized ∧
     get_status ["secret"] initState "wrong" "" = .error .unauthorized ∧
     step ["secret"] initState (.submit "wrong" "" "img") = initState ∧
     validate_token [] "any" = false) :=
  ⟨by decide, c8_unauthorized_rejection ["secret"] initState "wrong" "" "img" "any" (by decide)⟩

/-- C3: with a valid token, `get_status` fails with NotFound exactly when the
table has no record for the identifier, returns the stored record verbatim
otherwise, and the poll step leaves the whole state (in particular the
table) unchanged. -/
theorem c3_get_status_reads_table (validTokens : List String) (s : SState)
    (token id : String) (h : validate_token validTokens token = true) :
    (get_status validTokens s token id = .error .notFound ↔ s.table.lookup id = none) ∧
    (∀ r, s.table.lookup id = some r → get_status validTokens s token id = .ok r) ∧
    step validTokens s (.poll token id) = s := by
  refine ⟨?_, ?_, rfl⟩
  · cases h2 : s.table.lookup id <;> simp [get_status, h, h2]
  · intro r hr
    simp [get_status, h, hr]

/-- Witness for C3 at a concrete state holding one record. -/
theorem c3_get_status_reads_table_witness :
    validate_token ["secret"] "secret" = true ∧
    ((get_status ["secret"] { initState with table := [("r1", queuedRec)] } "secret" "r2"
        = .error .notFound ↔
      ({ initState with table := [("r1", queuedRec)] } : SState).table.lookup "r2" = none) ∧
     (∀ r, ({ initState with table := [("r1", queuedRec)] } : SState).table.lookup "r2" = some r →
       get_status ["secret"] { initState with table := [("r1", queuedRec)] } "secret" "r2" = .ok r) ∧
     step ["secret"] { initState with table := [("r1", queuedRec)] } (.poll "secret" "r2")
        = { initState with table := [("r1", queuedRec)] }) :=
  ⟨by decide,
   c3_get_status_reads_table ["secret"] { initState with table := [("r1", queuedRec)] }
     "secret" "r2" (by decide)⟩

/-- C10: a submit for an identifier that already has a record (terminal or
not) with a valid token is accepted, overwrites the record with a fresh
queued one, and appends one more background task for that identifier. -/
theorem c10_resubmission_accepted (validTokens : List String) (s : SState)
    (token id image : String) (r : JobRecord)
    (htok : validate_token validTokens token = true) (hid : id ≠ "")
    (hr : s.table.lookup id = some r) :
    generate_model validTokens token id =
      .ok { status := "queued",
            message := "Your request has been queued for processing",
            request_id := id } ∧
    (step validTokens s (.submit token id image)).table.lookup id = some queuedRec ∧
    (step validTokens s (.submit token id image)).workers
      = s.workers ++ [{ tid := id, image := image, phase := .pending }] := by
  refine ⟨?_, ?_, ?_⟩
  · simp [generate_model, htok, hid]
  · simp [step, htok, hid, List.lookup]
  · simp [step, htok, hid]

/-- Witness for C10: resubmitting over a terminal (completed) record. -/
theorem c10_resubmission_accepted_witness :
    (validate_token ["secret"] "secret" = true ∧ "r1" ≠ "" ∧
     ({ initState with table := [("r1", completedRec "m.glb")] } : SState).table.lookup "r1"
        = some (completedRec "m.glb")) ∧
    (generate_model ["secret"] "secret" "r1" =
      .ok { status := "queued",
            message := "Your request has been queued for processing",
            request_id := "r1" } ∧
     (step ["secret"] { initState with table := [("r1", completedRec "m.glb")] }
        (.submit "secret" "r1" "img")).table.lookup "r1" = some queuedRec ∧
     (step ["secret"] { initState with table := [("r1", completedRec "m.glb")] }
        (.submit "secret" "r1" "img")).workers
       = ({ initState with table := [("r1", completedRec "m.glb")] } : SState).workers
           ++ [{ tid := "r1", image := "img", phase := .pending }]) :=
  ⟨⟨by decide, by decide, by decide⟩,
   c10_resubmission_accepted ["secret"] { initState with table := [("r1", completedRec "m.glb")] }
     "secret" "r1" "img" (completedRec "m.glb") (by decide) (by decide) (by decide)⟩

/-- C6: the completion wait returns exactly on the first event that is a text
frame of type "executing" with a null node and this job's prompt id; every
earlier event (other type, non-null node, other prompt id, or a non-text
frame) does not terminate the wait. -/
theorem c6_await_first_sentinel (promptId : String) (evs : List WsEvent) (i : Nat) :
    awaitCompletion promptId evs = some i ↔
      (∃ ev, evs[i]? = some ev ∧ isFinishedSentinel promptId ev = true) ∧
      (∀ j ev, j < i → evs[j]? = some ev → isFinishedSentinel promptId ev = false) := by
  induction evs generalizing i with
  | nil => simp [awaitCompletion]
  | cons ev evs ih =>
    by_cases hs : isFinishedSentinel promptId ev = true
    · constructor
      · intro h
        simp [awaitCompletion, hs] at h
        subst h
        exact ⟨⟨ev, by simp, hs⟩, by intro j e hj; omega⟩
      · rintro ⟨⟨e, he, hsent⟩, hbefore⟩
        cases i with
        | zero => simp [awaitCompletion, hs]
        | succ i2 =>
            have := hbefore 0 ev (Nat.succ_pos i2) (by simp)
            rw [hs] at this
            exact absurd this (by decide)
    · have hs2 : isFinishedSentinel promptId ev = false := by
        cases h : isFinishedSentinel promptId ev
        · rfl
        · exact absurd h hs
      cases i with
      | zero =>
        constructor
        · intro h
          simp [awaitCompletion, hs2] at h
        · rintro ⟨⟨e, he, hsent⟩, _⟩
          simp at he
          subst he
          exact absurd hsent hs
      | succ i2 =>
        have hrw : awaitCompletion promptId (ev :: evs)
            = (awaitCompletion promptId evs).map (· + 1) := by
          simp [awaitCompletion, hs2]
        rw [hrw]
        constructor
        · intro h
          obtain ⟨a, ha, hai⟩ := Option.map_eq_some'.mp h
          have haeq : a = i2 := by omega
          rw [haeq] at ha
          obtain ⟨⟨e, he, hsent⟩, hbef⟩ := (ih i2).mp ha
          refine ⟨⟨e, by simpa using he, hsent⟩, ?_⟩
          intro j e2 hj hje
          cases j with
          | zero =>
            simp at hje
            subst hje
            exact hs2
          | succ j2 => exact hbef j2 e2 (by omega) (by simpa using hje)
        · rintro ⟨⟨e, he, hsent⟩, hbef⟩
          have h1 : awaitCompletion promptId evs = some i2 :=
            (ih i2).mpr ⟨⟨e, by simpa using he, hsent⟩,
              fun j e2 hj hje => hbef (j + 1) e2 (by omega) (by simpa using hje)⟩
          simp [h1]

end ApiServer
